import Mathlib

/-!
# CList (IrDA/Utils/CList.cpp)

A shallow embedding of the `CList` class of the IrDA utilities: a list of
pointer-sized references layered on `CDynamicArray`, searched through a
`CListIterator` and a `CItemComparer`.

The member functions of `CList.cpp` are embedded from their code.
`CDynamicArray`, `CListIterator`, `CItemComparer` and the inline members
declared in `CList.h` are embedded from their description in the specification;
each such definition says so in its doc comment.

Conventions:
* a reference (`void*`) and the `ULong` it is stored as have the same width, so
  the casts in `InsertAt`, `ReplaceAt` and `At` are the identity; both are `Nat`
  here and `nil` is `0`;
* `ArrayIndex` is a signed machine integer; every index the code computes lies
  in `[-1, count]`, so no arithmetic wraps and `Int` is used;
* growing the slot array can fail: an insertion takes, as the parameter `room`,
  whether the array has or acquires the storage for the new slot, and returns
  the allocation error when it does not;
* constructing an iterator or a comparer is taken to succeed (the specification
  gives construction no failure outcome).  The `Fail:` exits of the source are
  kept in the embedding (the factories return an `Option`).
-/

namespace IrDA

/-- A slot value: a reference stored as a pointer-sized unsigned integer. -/
abbrev ULong := Nat

/-- A signed index into the array. -/
abbrev ArrayIndex := Int

/-- The `nil` reference, also the "no value" result of `At` and `Search`. -/
def nil : ULong := 0

/-- Modelled from the spec: the sentinel empty index of `CDynamicArray.h`
(missing from the sources), "logically `-1`"; `GetIdentityIndex` initialises its
result to the literal `-1`. -/
def kEmptyIndex : ArrayIndex := -1

/-- Modelled from the spec: the error codes of `IrDAErr` that reach `CList.cpp`.
Their numeric values are in a header missing from the sources; `noErr` is
success, `errRangeCheck` the range error of the positional operations, and
`errNoMemory` stands for the spec's "allocation failure (growth could not
acquire storage)", whose name in the header is not known. -/
inductive IrDAErr where
  | noErr
  | errRangeCheck
  | errNoMemory
  deriving DecidableEq, Repr

/-- Modelled from the spec: the result of `CItemComparer::TestItem`, "one of
{equal, not-equal}" (`CItemComparer.h` is missing from the sources). -/
inductive CompareResult where
  | kItemEqualCriteria
  | kItemNotEqualCriteria
  deriving DecidableEq, Repr

open IrDAErr CompareResult

/-- Modelled from the spec: the comparator capability object, a single
operation `TestItem(candidate)` (`CItemComparer.h` is missing from the
sources). -/
structure CItemComparer where
  TestItem : ULong → CompareResult

/-- Modelled from the spec: the factory of the default comparer, which
"returns equal iff candidate is the same reference value as the held
criterion" `testItem`; the key value (`nil` at the one call site) plays no part
in the identity test.  Construction is taken to succeed. -/
def CItemComparer.cItemComparer (testItem _keyValue : ULong) : Option CItemComparer :=
  some ⟨fun candidate =>
    if candidate = testItem then kItemEqualCriteria else kItemNotEqualCriteria⟩

/-- Modelled from the spec: the element storage (`CDynamicArray`, missing from
the sources) as the sequence of its live slots, indices `[0, count)`.  Capacity
and chunk size are not part of this state; what they and the allocator decide,
whether an insertion finds the storage for its new slot, is the `room`
parameter of the insertions. -/
structure CList where
  fArrayBlock : List ULong
  deriving DecidableEq, Repr

namespace CList

/-- The logical count of the array. -/
def fSize (l : CList) : ArrayIndex := (l.fArrayBlock.length : Int)

/-- Modelled from the spec: `elementPointerAt(index)` "returns a pointer to
slot index, or a not-found signal if index is outside [0, count)".  The pointer
is the position of the slot. -/
def SafeElementPtrAt (l : CList) (index : ArrayIndex) : Option Nat :=
  if 0 ≤ index ∧ index < l.fSize then some index.toNat else none

/-- Modelled from the spec: `insertBefore(index, data, 1)` for one element:
"grows storage if needed, shifts all elements at or after index one slot
forward, copies the new element into the gap, increments logical count;
index == count appends; fails with a range error if index > count".  A negative
index is a range error too.  Growth can fail ("allocation failure: growth could
not acquire storage", an error "returned to the immediate caller"): `room` says
whether the array has, or by growing acquires, the storage for the new slot;
without it nothing is inserted and `errNoMemory` is returned. -/
def InsertElementsBefore (l : CList) (index : ArrayIndex) (data : ULong) (room : Bool) :
    IrDAErr × CList :=
  if 0 ≤ index ∧ index ≤ l.fSize then
    if room then
      (noErr, ⟨l.fArrayBlock.take index.toNat ++ data :: l.fArrayBlock.drop index.toNat⟩)
    else (errNoMemory, l)
  else (errRangeCheck, l)

/-- Modelled from the spec: `removeAt(index)` "shifts all elements after index
one slot backward, decrements logical count; fails with a range error if index
is outside [0, count)". -/
def RemoveAt (l : CList) (index : ArrayIndex) : IrDAErr × CList :=
  if 0 ≤ index ∧ index < l.fSize then
    (noErr, ⟨l.fArrayBlock.take index.toNat ++ l.fArrayBlock.drop (index.toNat + 1)⟩)
  else (errRangeCheck, l)

/-- Modelled from the spec: `replaceAt(index, data, 1)` for one element:
"overwrites the slot at index in place without shifting; fails with a range
error if out of bounds". -/
def ReplaceElementsAt (l : CList) (index : ArrayIndex) (data : ULong) : IrDAErr × CList :=
  if 0 ≤ index ∧ index < l.fSize then
    (noErr, ⟨l.fArrayBlock.set index.toNat data⟩)
  else (errRangeCheck, l)

/-- `CList::At`: the reference in slot `index`, `nil` when
`SafeElementPtrAt` finds no slot. -/
def At (l : CList) (index : ArrayIndex) : ULong :=
  match l.SafeElementPtrAt index with
  | none => nil
  | some itemPtr => l.fArrayBlock.getD itemPtr nil

/-- `CList::InsertAt`; `room` is handed on to `InsertElementsBefore`. -/
def InsertAt (l : CList) (index : ArrayIndex) (item : ULong) (room : Bool) : IrDAErr × CList :=
  let data : ULong := item
  l.InsertElementsBefore index data room

/-- Modelled from the spec: `insertLast(ref)`, "convenience for
`insertAt(count, ref)`" (an inline member of `CList.h`, missing from the
sources). -/
def InsertLast (l : CList) (item : ULong) (room : Bool) : IrDAErr × CList :=
  l.InsertAt l.fSize item room

/-- `CList::ReplaceAt`. -/
def ReplaceAt (l : CList) (index : ArrayIndex) (newItem : ULong) : IrDAErr × CList :=
  let data : ULong := newItem
  l.ReplaceElementsAt index data

end CList

/-- Modelled from the spec: the iterator (`CListIterator`, missing from the
sources): a cursor whose current index "is always either a valid slot index or
the sentinel".  The list it is bound to is passed to each operation, since the
iterator reads the live container. -/
structure CListIterator where
  fCurrentIndex : ArrayIndex
  deriving DecidableEq, Repr

namespace CListIterator

/-- Modelled from the spec: the factory binding an iterator to a list.
Construction is taken to succeed. -/
def cListIterator (_l : CList) : Option CListIterator :=
  some ⟨kEmptyIndex⟩

/-- Modelled from the spec: `more()` is "true iff the cursor currently points
at a valid index within the current logical count". -/
def More (iter : CListIterator) (l : CList) : Bool :=
  decide (0 ≤ iter.fCurrentIndex ∧ iter.fCurrentIndex < l.fSize)

/-- Modelled from the spec: `firstItem()` "resets the cursor to logical index 0
(or the sentinel if the container is empty) and returns the element there, or no
value if empty". -/
def FirstItem (_iter : CListIterator) (l : CList) : ULong × CListIterator :=
  let iter : CListIterator := ⟨if l.fSize = 0 then kEmptyIndex else 0⟩
  (if iter.More l then l.At iter.fCurrentIndex else nil, iter)

/-- Modelled from the spec: `nextItem()` "advances the cursor by one and returns
the element now under the cursor, or no value if advancing moves past the
end"; past the end the cursor is the sentinel. -/
def NextItem (iter : CListIterator) (l : CList) : ULong × CListIterator :=
  let next : ArrayIndex := iter.fCurrentIndex + 1
  let iter : CListIterator := ⟨if 0 ≤ next ∧ next < l.fSize then next else kEmptyIndex⟩
  (if iter.More l then l.At iter.fCurrentIndex else nil, iter)

end CListIterator

namespace CList

open CListIterator

/-- The `for` loop of `CList::Search`, entered after `FirstItem` (and after each
`NextItem`) with the item just fetched: while `More()`, test the item and either
stop with it and the cursor's index or fetch the next one.  `none` when the
fuel runs out before the loop ends. -/
def Search.loop (l : CList) (test : CItemComparer) :
    Nat → CListIterator → ULong → Option (ULong × ArrayIndex)
  | 0, _, _ => none
  | fuel + 1, iter, item =>
    if iter.More l then
      if test.TestItem item = kItemEqualCriteria then
        some (item, iter.fCurrentIndex)
      else
        let (item, iter) := iter.NextItem l
        Search.loop l test fuel iter item
    else
      some (nil, kEmptyIndex)

/-- `CList::Search`: the value and the index (the `index` out-parameter) of the
first item for which `TestItem` returns `kItemEqualCriteria`, or `nil` and
`kEmptyIndex`.  The loop is given one step more than the list has slots. -/
def Search (l : CList) (test : CItemComparer) : Option (ULong × ArrayIndex) :=
  match cListIterator l with
  | none => some (nil, kEmptyIndex)
  | some iter =>
    let (item, iter) := iter.FirstItem l
    Search.loop l test (l.fArrayBlock.length + 1) iter item

/-- `CList::GetIdentityIndex`: the index `Search` reports for the default
(identity) comparer of `item`; `-1` when the comparer cannot be made. -/
def GetIdentityIndex (l : CList) (item : ULong) : Option ArrayIndex :=
  match CItemComparer.cItemComparer item nil with
  | none => some (-1)
  | some test => (l.Search test).map Prod.snd

/-- Modelled from the spec: `contains(ref)` is "true iff
`getIdentityIndex(ref)` finds a match" (an inline member of `CList.h`, missing
from the sources). -/
def Contains (l : CList) (item : ULong) : Option Bool :=
  (l.GetIdentityIndex item).map fun index => decide (index ≠ kEmptyIndex)

/-- `CList::Remove`. -/
def Remove (l : CList) (item : ULong) : Option (IrDAErr × CList) :=
  (l.GetIdentityIndex item).map fun index =>
    if index ≠ kEmptyIndex then l.RemoveAt index else (errRangeCheck, l)

/-- `CList::InsertUnique`.  The error of `InsertLast` is received in `ignored`
and dropped: `XASSERTNOT(ignored)` is a debug assertion, it does not alter the
value returned.  `room` is the storage outcome of the append, consulted only
when the append is attempted. -/
def InsertUnique (l : CList) (add : ULong) (room : Bool) : Option (Bool × CList) :=
  (l.Contains add).map fun contained =>
    let result := !contained
    if result then
      let (_ignored, l) := l.InsertLast add room
      (result, l)
    else (result, l)

/-- `CList::Replace`. -/
def Replace (l : CList) (oldItem newItem : ULong) : Option (IrDAErr × CList) :=
  (l.GetIdentityIndex oldItem).map fun index =>
    if index ≠ kEmptyIndex then l.ReplaceAt index newItem else (errRangeCheck, l)

end CList

/-- The first element of `xs` that `test` reports equal, paired with its
position counted from `k`; `(nil, kEmptyIndex)` when there is none.  A
list-recursive reference for the result of `Search`, used only in proofs. -/
def firstMatch (test : CItemComparer) : List ULong → Nat → ULong × ArrayIndex
  | [], _ => (nil, kEmptyIndex)
  | x :: xs, k =>
    if test.TestItem x = kItemEqualCriteria then (x, (k : Int)) else firstMatch test xs (k + 1)

/-! ### `Search` with the list as explicit state

`Search` above takes the comparer's `TestItem` as a pure test and has the list as
an input only.  The embedding below follows the same code with the list passed
from call to call, so that a `TestItem` acting on the list is expressible, and
records each argument handed to `TestItem`. -/

/-- A comparer whose `TestItem` may act on the list being searched: it is given
the current list and returns its answer together with the list it leaves. -/
structure CItemComparerS where
  TestItem : CList → ULong → CompareResult × CList

/-- A comparer with a pure test, seen as one that leaves the list alone. -/
def CItemComparer.toS (test : CItemComparer) : CItemComparerS :=
  ⟨fun l candidate => (test.TestItem candidate, l)⟩

/-- What one run of `Search` leaves: the returned value, the `index`
out-parameter, the list after the call, and the arguments of the `TestItem`
calls in call order. -/
structure SearchRun where
  result : ULong
  index : ArrayIndex
  list : CList
  tested : List ULong
  deriving DecidableEq, Repr

namespace CList

open CListIterator

/-- The `for` loop of `CList::Search` with the list as state: `More()` and
`NextItem()` read the list as it is when they are called, `TestItem` may change
it.  `tested` collects the items passed to `TestItem` so far. -/
def Search.loopS (test : CItemComparerS) :
    Nat → CList → CListIterator → ULong → List ULong → Option SearchRun
  | 0, _, _, _, _ => none
  | fuel + 1, l, iter, item, tested =>
    if iter.More l then
      let (answer, l) := test.TestItem l item
      if answer = kItemEqualCriteria then
        some ⟨item, iter.fCurrentIndex, l, tested ++ [item]⟩
      else
        let (next, iter) := iter.NextItem l
        Search.loopS test fuel l iter next (tested ++ [item])
    else
      some ⟨nil, kEmptyIndex, l, tested⟩

/-- `CList::Search` with the list as state, its loop given `fuel` steps; `none`
when the loop has not ended within them.  A `TestItem` that keeps growing the
list keeps the loop of the source running, so no step count fits every
comparer. -/
def SearchSWithin (fuel : Nat) (l : CList) (test : CItemComparerS) : Option SearchRun :=
  match cListIterator l with
  | none => some ⟨nil, kEmptyIndex, l, []⟩
  | some iter =>
    let (item, iter) := iter.FirstItem l
    Search.loopS test fuel l iter item []

/-- `CList::Search` with the list as state, its loop given one step more than
the list has slots on entry.  That is enough for every `TestItem` that leaves
the list alone (`SearchS_eq`); for a `TestItem` that grows the list the loop can
take longer and `SearchSWithin` is the run with a larger step count. -/
def SearchS (l : CList) (test : CItemComparerS) : Option SearchRun :=
  l.SearchSWithin (l.fArrayBlock.length + 1) test

/-- `CList::GetIdentityIndex` with the list as state: the index found and the
list after the call. -/
def GetIdentityIndexS (l : CList) (item : ULong) : Option (ArrayIndex × CList) :=
  match CItemComparer.cItemComparer item nil with
  | none => some (-1, l)
  | some test => (l.SearchS test.toS).map fun run => (run.index, run.list)

end CList

/-- No reference occurs at two different indices of the list. -/
def CList.DuplicateFree (l : CList) : Prop :=
  ∀ i j : Int, 0 ≤ i → i < l.fSize → 0 ≤ j → j < l.fSize → l.At i = l.At j → i = j

/-- The elements of `xs` up to and including the first one that `test` reports
equal (all of `xs` when there is none): the items `Search` hands to `TestItem`.
A list-recursive reference, used only in proofs. -/
def testedPrefix (test : CItemComparer) : List ULong → List ULong
  | [] => []
  | x :: xs =>
    if test.TestItem x = kItemEqualCriteria then [x] else x :: testedPrefix test xs

/-! ## Accessors -/

theorem CList.At_natCast (l : CList) (j : Nat) :
    l.At (j : Int) = l.fArrayBlock.getD j nil := by
  unfold CList.At CList.SafeElementPtrAt CList.fSize
  by_cases h : j < l.fArrayBlock.length
  · have h' : (0 : Int) ≤ (j : Int) ∧ (j : Int) < (l.fArrayBlock.length : Int) := by omega
    simp [h']
  · have h' : ¬ ((0 : Int) ≤ (j : Int) ∧ (j : Int) < (l.fArrayBlock.length : Int)) := by omega
    have h2 : l.fArrayBlock.length ≤ j := by omega
    simp only [h', if_false]
    simp [List.getD, List.getElem?_eq_none h2]

theorem CList.At_out_of_range (l : CList) (index : Int)
    (h : index < 0 ∨ l.fSize ≤ index) : l.At index = nil := by
  unfold CList.At CList.SafeElementPtrAt
  have h' : ¬ (0 ≤ index ∧ index < l.fSize) := by
    rintro ⟨h1, h2⟩
    rcases h with h | h
    · exact absurd h1 (not_le.mpr h)
    · exact absurd h2 (not_lt.mpr h)
  simp [h']

/-! ## The search loop -/

/-- The cursor after `FirstItem` and `k` calls of `NextItem`. -/
theorem CListIterator.More_at (l : CList) (k : Nat) :
    CListIterator.More ⟨if k < l.fArrayBlock.length then (k : Int) else kEmptyIndex⟩ l
      = decide (k < l.fArrayBlock.length) := by
  unfold CListIterator.More CList.fSize kEmptyIndex
  by_cases h : k < l.fArrayBlock.length
  · simp [h]
  · simp [h]

theorem CListIterator.NextItem_at (l : CList) (k : Nat) (h : k < l.fArrayBlock.length) :
    CListIterator.NextItem ⟨(k : Int)⟩ l
      = (if k + 1 < l.fArrayBlock.length then l.fArrayBlock.getD (k + 1) nil else nil,
         ⟨if k + 1 < l.fArrayBlock.length then ((k + 1 : Nat) : Int) else kEmptyIndex⟩) := by
  unfold CListIterator.NextItem
  have hc : (if (0 : Int) ≤ (k : Int) + 1 ∧ (k : Int) + 1 < l.fSize then (k : Int) + 1
      else kEmptyIndex) = (if k + 1 < l.fArrayBlock.length then ((k + 1 : Nat) : Int)
      else kEmptyIndex) := by
    unfold CList.fSize
    by_cases h1 : k + 1 < l.fArrayBlock.length
    · have : (0 : Int) ≤ (k : Int) + 1 ∧ (k : Int) + 1 < (l.fArrayBlock.length : Int) := by omega
      simp [h1, this]
    · have : ¬ ((0 : Int) ≤ (k : Int) + 1 ∧ (k : Int) + 1 < (l.fArrayBlock.length : Int)) := by
        omega
      simp [h1, this]
  simp only [hc, CListIterator.More_at]
  by_cases h1 : k + 1 < l.fArrayBlock.length
  · simp only [h1, if_true, decide_True]
    rw [CList.At_natCast]
  · simp [h1]

theorem CListIterator.FirstItem_at (l : CList) (iter : CListIterator) :
    iter.FirstItem l
      = (if 0 < l.fArrayBlock.length then l.fArrayBlock.getD 0 nil else nil,
         ⟨if 0 < l.fArrayBlock.length then ((0 : Nat) : Int) else kEmptyIndex⟩) := by
  unfold CListIterator.FirstItem
  have hc : (if l.fSize = 0 then kEmptyIndex else (0 : Int))
      = (if 0 < l.fArrayBlock.length then ((0 : Nat) : Int) else kEmptyIndex) := by
    unfold CList.fSize
    by_cases h1 : 0 < l.fArrayBlock.length
    · have : ¬ ((l.fArrayBlock.length : Int) = 0) := by omega
      simp [h1, this]
    · have : (l.fArrayBlock.length : Int) = 0 := by omega
      simp [h1, this]
  simp only [hc, CListIterator.More_at]
  by_cases h1 : 0 < l.fArrayBlock.length
  · simp only [h1, if_true, decide_True]
    rw [CList.At_natCast]
  · simp [h1]

/-- With the cursor on slot `k` (or on the sentinel when `k` is the count) and
more fuel than slots remain, the loop returns the first match among the slots
from `k` on. -/
theorem CList.Search_loop_eq (l : CList) (test : CItemComparer) :
    ∀ (n k fuel : Nat), k + n = l.fArrayBlock.length → n < fuel →
      CList.Search.loop l test fuel
          ⟨if k < l.fArrayBlock.length then (k : Int) else kEmptyIndex⟩
          (if k < l.fArrayBlock.length then l.fArrayBlock.getD k nil else nil)
        = some (firstMatch test (l.fArrayBlock.drop k) k) := by
  intro n
  induction n with
  | zero =>
    intro k fuel hk hf
    obtain ⟨f, rfl⟩ : ∃ f, fuel = f + 1 := ⟨fuel - 1, by omega⟩
    have hlt : ¬ k < l.fArrayBlock.length := by omega
    have hdrop : l.fArrayBlock.drop k = [] := List.drop_eq_nil_of_le (by omega)
    rw [CList.Search.loop, CListIterator.More_at, hdrop]
    simp [hlt, firstMatch]
  | succ n ih =>
    intro k fuel hk hf
    obtain ⟨f, rfl⟩ : ∃ f, fuel = f + 1 := ⟨fuel - 1, by omega⟩
    have hlt : k < l.fArrayBlock.length := by omega
    have hdrop : l.fArrayBlock.drop k = l.fArrayBlock.getD k nil :: l.fArrayBlock.drop (k + 1) := by
      rw [List.drop_eq_getElem_cons hlt]
      simp [List.getD, List.getElem?_eq_getElem hlt]
    rw [CList.Search.loop, CListIterator.More_at, hdrop]
    simp only [hlt, decide_True, if_true, firstMatch]
    by_cases ht : test.TestItem (l.fArrayBlock.getD k nil) = kItemEqualCriteria
    · rw [if_pos ht, if_pos ht]
    · rw [if_neg ht, if_neg ht, CListIterator.NextItem_at l k hlt]
      exact ih (k + 1) f (by omega) (by omega)

theorem CList.Search_eq (l : CList) (test : CItemComparer) :
    l.Search test = some (firstMatch test l.fArrayBlock 0) := by
  unfold CList.Search CListIterator.cListIterator
  simp only [CListIterator.FirstItem_at]
  have := CList.Search_loop_eq l test l.fArrayBlock.length 0 (l.fArrayBlock.length + 1)
    (by omega) (by omega)
  simpa using this

theorem firstMatch_cases (test : CItemComparer) :
    ∀ (xs : List ULong) (k : Nat),
      (∃ i : Nat, i < xs.length ∧ test.TestItem (xs.getD i nil) = kItemEqualCriteria ∧
          (∀ j : Nat, j < i → test.TestItem (xs.getD j nil) ≠ kItemEqualCriteria) ∧
          firstMatch test xs k = (xs.getD i nil, ((k + i : Nat) : Int))) ∨
      ((∀ j : Nat, j < xs.length → test.TestItem (xs.getD j nil) ≠ kItemEqualCriteria) ∧
          firstMatch test xs k = (nil, kEmptyIndex)) := by
  intro xs
  induction xs with
  | nil =>
    intro k
    right
    exact ⟨fun j hj => absurd hj (Nat.not_lt_zero j), rfl⟩
  | cons x xs ih =>
    intro k
    by_cases hx : test.TestItem x = kItemEqualCriteria
    · left
      refine ⟨0, Nat.succ_pos _, ?_, fun j hj => absurd hj (Nat.not_lt_zero j), ?_⟩
      · simpa using hx
      · simp [firstMatch, hx]
    · rcases ih (k + 1) with ⟨i, hi, hti, hlow, hres⟩ | ⟨hnone, hres⟩
      · left
        refine ⟨i + 1, Nat.succ_lt_succ hi, ?_, ?_, ?_⟩
        · simpa using hti
        · intro j hj
          cases j with
          | zero => simpa using hx
          | succ j =>
            have := hlow j (by omega)
            simpa using this
        · have hk : k + 1 + i = k + (i + 1) := by omega
          simp only [firstMatch, hx, if_false, hres, hk]
          simp
      · right
        refine ⟨?_, ?_⟩
        · intro j hj
          cases j with
          | zero => simpa using hx
          | succ j =>
            have := hnone j (by simpa using hj)
            simpa using this
        · simp only [firstMatch, hx, if_false, hres]

/-- What `Search` returns, by cases on whether some slot tests equal. -/
theorem CList.Search_cases (l : CList) (test : CItemComparer) :
    (∃ i : Nat, i < l.fArrayBlock.length ∧
        test.TestItem (l.At (i : Int)) = kItemEqualCriteria ∧
        (∀ j : Nat, j < i → test.TestItem (l.At (j : Int)) ≠ kItemEqualCriteria) ∧
        l.Search test = some (l.At (i : Int), (i : Int))) ∨
    ((∀ j : Nat, j < l.fArrayBlock.length →
        test.TestItem (l.At (j : Int)) ≠ kItemEqualCriteria) ∧
        l.Search test = some (nil, kEmptyIndex)) := by
  simp only [CList.At_natCast, CList.Search_eq]
  rcases firstMatch_cases test l.fArrayBlock 0 with ⟨i, hi, hti, hlow, hres⟩ | ⟨hnone, hres⟩
  · left
    refine ⟨i, hi, hti, hlow, ?_⟩
    rw [hres]
    simp
  · right
    exact ⟨hnone, by rw [hres]⟩

/-- `GetIdentityIndex` is `Search` with the identity comparer. -/
theorem CList.GetIdentityIndex_cases (l : CList) (r : ULong) :
    (∃ i : Nat, i < l.fArrayBlock.length ∧ l.At (i : Int) = r ∧
        (∀ j : Nat, j < i → l.At (j : Int) ≠ r) ∧
        l.GetIdentityIndex r = some (i : Int)) ∨
    ((∀ j : Nat, j < l.fArrayBlock.length → l.At (j : Int) ≠ r) ∧
        l.GetIdentityIndex r = some kEmptyIndex) := by
  unfold CList.GetIdentityIndex CItemComparer.cItemComparer
  have key : ∀ c : ULong,
      ((if c = r then kItemEqualCriteria else kItemNotEqualCriteria) = kItemEqualCriteria)
        ↔ c = r := by
    intro c
    by_cases hc : c = r
    · simp [hc]
    · simp [hc]
  rcases CList.Search_cases l
      ⟨fun candidate => if candidate = r then kItemEqualCriteria else kItemNotEqualCriteria⟩
    with ⟨i, hi, hti, hlow, hres⟩ | ⟨hnone, hres⟩
  · left
    refine ⟨i, hi, (key _).mp hti, fun j hj h => hlow j hj ((key _).mpr h), ?_⟩
    simp only [hres, Option.map_some']
  · right
    refine ⟨fun j hj h => hnone j hj ((key _).mpr h), ?_⟩
    simp only [hres, Option.map_some']

theorem CList.mem_iff_At (l : CList) (r : ULong) :
    r ∈ l.fArrayBlock ↔ ∃ j : Nat, j < l.fArrayBlock.length ∧ l.At (j : Int) = r := by
  simp only [CList.At_natCast]
  constructor
  · intro h
    obtain ⟨j, hj, hjr⟩ := List.mem_iff_getElem.mp h
    exact ⟨j, hj, by simp [List.getD, List.getElem?_eq_getElem hj, hjr]⟩
  · rintro ⟨j, hj, hjr⟩
    refine List.mem_iff_getElem.mpr ⟨j, hj, ?_⟩
    simpa [List.getD, List.getElem?_eq_getElem hj] using hjr

/-- The index `GetIdentityIndex` returns for a reference that occurs. -/
theorem CList.GetIdentityIndex_of_mem (l : CList) (r : ULong) (h : r ∈ l.fArrayBlock) :
    ∃ i : Nat, i < l.fArrayBlock.length ∧ l.At (i : Int) = r ∧
      (∀ j : Nat, j < i → l.At (j : Int) ≠ r) ∧ l.GetIdentityIndex r = some (i : Int) := by
  rcases l.GetIdentityIndex_cases r with hfound | ⟨hnone, _⟩
  · exact hfound
  · obtain ⟨j, hj, hjr⟩ := (l.mem_iff_At r).mp h
    exact absurd hjr (hnone j hj)

theorem CList.GetIdentityIndex_of_not_mem (l : CList) (r : ULong) (h : r ∉ l.fArrayBlock) :
    l.GetIdentityIndex r = some kEmptyIndex := by
  rcases l.GetIdentityIndex_cases r with ⟨i, hi, hir, _, _⟩ | ⟨_, hres⟩
  · exact absurd ((l.mem_iff_At r).mpr ⟨i, hi, hir⟩) h
  · exact hres

/-! ## Positional operations -/

theorem CList.RemoveAt_natCast (l : CList) (i : Nat) (h : i < l.fArrayBlock.length) :
    l.RemoveAt (i : Int)
      = (noErr, ⟨l.fArrayBlock.take i ++ l.fArrayBlock.drop (i + 1)⟩) := by
  unfold CList.RemoveAt CList.fSize
  have h' : (0 : Int) ≤ (i : Int) ∧ (i : Int) < (l.fArrayBlock.length : Int) := by omega
  simp [h']

theorem CList.ReplaceAt_natCast (l : CList) (i : Nat) (new : ULong)
    (h : i < l.fArrayBlock.length) :
    l.ReplaceAt (i : Int) new = (noErr, ⟨l.fArrayBlock.set i new⟩) := by
  unfold CList.ReplaceAt CList.ReplaceElementsAt CList.fSize
  have h' : (0 : Int) ≤ (i : Int) ∧ (i : Int) < (l.fArrayBlock.length : Int) := by omega
  simp [h']

theorem CList.InsertAt_natCast (l : CList) (i : Nat) (x : ULong)
    (h : i ≤ l.fArrayBlock.length) :
    l.InsertAt (i : Int) x true
      = (noErr, ⟨l.fArrayBlock.take i ++ x :: l.fArrayBlock.drop i⟩) := by
  unfold CList.InsertAt CList.InsertElementsBefore CList.fSize
  have h' : (0 : Int) ≤ (i : Int) ∧ (i : Int) ≤ (l.fArrayBlock.length : Int) := by omega
  simp [h']

theorem CList.InsertAt_natCast_no_room (l : CList) (i : Nat) (x : ULong)
    (h : i ≤ l.fArrayBlock.length) :
    l.InsertAt (i : Int) x false = (errNoMemory, l) := by
  unfold CList.InsertAt CList.InsertElementsBefore CList.fSize
  have h' : (0 : Int) ≤ (i : Int) ∧ (i : Int) ≤ (l.fArrayBlock.length : Int) := by omega
  simp [h']

theorem CList.InsertLast_eq (l : CList) (x : ULong) :
    l.InsertLast x true = (noErr, ⟨l.fArrayBlock ++ [x]⟩) := by
  unfold CList.InsertLast CList.fSize
  rw [CList.InsertAt_natCast l l.fArrayBlock.length x (le_refl _)]
  simp

theorem CList.InsertLast_no_room (l : CList) (x : ULong) :
    l.InsertLast x false = (errNoMemory, l) := by
  unfold CList.InsertLast CList.fSize
  exact CList.InsertAt_natCast_no_room l l.fArrayBlock.length x (le_refl _)

theorem CList.Contains_of_mem (l : CList) (r : ULong) (h : r ∈ l.fArrayBlock) :
    l.Contains r = some true := by
  obtain ⟨i, _, _, _, hres⟩ := l.GetIdentityIndex_of_mem r h
  unfold CList.Contains
  rw [hres]
  have : (i : Int) ≠ kEmptyIndex := by unfold kEmptyIndex; omega
  simp [this]

theorem CList.Contains_of_not_mem (l : CList) (r : ULong) (h : r ∉ l.fArrayBlock) :
    l.Contains r = some false := by
  unfold CList.Contains
  rw [l.GetIdentityIndex_of_not_mem r h]
  simp

/-- Erasing the first slot that holds `r` is `List.erase`. -/
theorem erase_eq_take_drop (r : ULong) :
    ∀ (xs : List ULong) (i : Nat), i < xs.length → xs.getD i nil = r →
      (∀ j : Nat, j < i → xs.getD j nil ≠ r) →
      xs.erase r = xs.take i ++ xs.drop (i + 1) := by
  intro xs
  induction xs with
  | nil => intro i hi; exact absurd hi (Nat.not_lt_zero i)
  | cons x xs ih =>
    intro i hi hir hlow
    cases i with
    | zero =>
      have hx : x = r := by simpa using hir
      subst hx
      simp
    | succ i =>
      have hx : x ≠ r := by simpa using hlow 0 (Nat.succ_pos i)
      have hi' : i < xs.length := by simpa using hi
      have hir' : xs.getD i nil = r := by simpa using hir
      have hlow' : ∀ j : Nat, j < i → xs.getD j nil ≠ r := by
        intro j hj
        simpa using hlow (j + 1) (by omega)
      rw [List.erase_cons_tail (by simpa using hx), ih i hi' hir' hlow']
      simp

/-! ## Identity-based operations by membership -/

theorem CList.Remove_of_mem (l : CList) (r : ULong) (h : r ∈ l.fArrayBlock) :
    l.Remove r = some (noErr, ⟨l.fArrayBlock.erase r⟩) := by
  obtain ⟨i, hi, hir, hlow, hres⟩ := l.GetIdentityIndex_of_mem r h
  have hne : (i : Int) ≠ kEmptyIndex := by unfold kEmptyIndex; omega
  unfold CList.Remove
  rw [hres]
  simp only [Option.map_some', hne, ne_eq, not_false_eq_true, if_true]
  rw [CList.RemoveAt_natCast l i hi]
  simp only [CList.At_natCast] at hir hlow
  rw [erase_eq_take_drop r l.fArrayBlock i hi hir hlow]

theorem CList.Remove_of_not_mem (l : CList) (r : ULong) (h : r ∉ l.fArrayBlock) :
    l.Remove r = some (errRangeCheck, l) := by
  unfold CList.Remove
  rw [l.GetIdentityIndex_of_not_mem r h]
  simp

theorem CList.Replace_of_not_mem (l : CList) (old new : ULong) (h : old ∉ l.fArrayBlock) :
    l.Replace old new = some (errRangeCheck, l) := by
  unfold CList.Replace
  rw [l.GetIdentityIndex_of_not_mem old h]
  simp

theorem CList.InsertUnique_of_not_mem (l : CList) (r : ULong) (h : r ∉ l.fArrayBlock) :
    l.InsertUnique r true = some (true, ⟨l.fArrayBlock ++ [r]⟩) := by
  unfold CList.InsertUnique
  rw [l.Contains_of_not_mem r h]
  simp [CList.InsertLast_eq]

/-- When the append finds no storage, `InsertUnique` still returns true and the
list is as it was. -/
theorem CList.InsertUnique_of_not_mem_no_room (l : CList) (r : ULong)
    (h : r ∉ l.fArrayBlock) :
    l.InsertUnique r false = some (true, l) := by
  unfold CList.InsertUnique
  rw [l.Contains_of_not_mem r h]
  simp [CList.InsertLast_no_room]

theorem CList.InsertUnique_of_mem (l : CList) (r : ULong) (room : Bool)
    (h : r ∈ l.fArrayBlock) :
    l.InsertUnique r room = some (false, l) := by
  unfold CList.InsertUnique
  rw [l.Contains_of_mem r h]
  simp

/-! ## Search and identity lookup -/

/-- C1: for every list and comparator, if `i` is the smallest index whose
element the comparator reports equal, `Search` returns the element stored at `i`
together with `i`; if the comparator reports equal for no element, `Search`
returns `nil` and the sentinel empty index. -/
theorem CList.Search_first_match (l : CList) (test : CItemComparer) :
    (∀ i : Int, 0 ≤ i → i < l.fSize →
        test.TestItem (l.At i) = kItemEqualCriteria →
        (∀ j : Int, 0 ≤ j → j < i → test.TestItem (l.At j) ≠ kItemEqualCriteria) →
        l.Search test = some (l.At i, i)) ∧
    ((∀ j : Int, 0 ≤ j → j < l.fSize → test.TestItem (l.At j) ≠ kItemEqualCriteria) →
        l.Search test = some (nil, kEmptyIndex)) := by
  unfold CList.fSize
  constructor
  · intro i h0 hi hti hlow
    lift i to ℕ using h0
    rcases l.Search_cases test with ⟨i0, hi0, hti0, hlow0, hres⟩ | ⟨hnone, _⟩
    · have hle : i0 = i := by
        rcases Nat.lt_trichotomy i0 i with hlt | heq | hgt
        · exact absurd hti0 (hlow (i0 : Int) (by omega) (by omega))
        · exact heq
        · exact absurd hti (hlow0 i hgt)
      rw [← hle]
      exact hres
    · exact absurd hti (hnone i (by omega))
  · intro hnone
    rcases l.Search_cases test with ⟨i0, hi0, hti0, _, _⟩ | ⟨_, hres⟩
    · exact absurd hti0 (hnone (i0 : Int) (by omega) (by omega))
    · exact hres

/-- Sample run for C1: in `[4, 9, 9]` the identity comparer of `9` first
matches at index 1, and a comparer that never reports equal finds nothing. -/
theorem CList.Search_first_match_witness :
    (CList.mk [4, 9, 9]).Search
        ⟨fun c => if c = 9 then kItemEqualCriteria else kItemNotEqualCriteria⟩ = some (9, 1) ∧
    (CList.mk [4, 9, 9]).Search ⟨fun _ => kItemNotEqualCriteria⟩ = some (nil, kEmptyIndex) :=
  ⟨(CList.Search_first_match ⟨[4, 9, 9]⟩
      ⟨fun c => if c = 9 then kItemEqualCriteria else kItemNotEqualCriteria⟩).1 1
      (by decide) (by decide) (by decide)
      (by
        intro j h0 h1
        have hj : j = 0 := by omega
        subst hj
        decide),
   (CList.Search_first_match ⟨[4, 9, 9]⟩ ⟨fun _ => kItemNotEqualCriteria⟩).2
      (by intro j _ _; simp)⟩

/-- C2: for every list (slots may hold `nil`) and every reference `r`,
`GetIdentityIndex r` returns the smallest index in `[0, count)` whose slot holds
`r` when there is one, and the sentinel `-1` when no slot holds `r`. -/
theorem CList.GetIdentityIndex_first_occurrence (l : CList) (r : ULong) :
    (∀ i : Int, 0 ≤ i → i < l.fSize → l.At i = r →
        (∀ j : Int, 0 ≤ j → j < i → l.At j ≠ r) →
        l.GetIdentityIndex r = some i) ∧
    ((∀ j : Int, 0 ≤ j → j < l.fSize → l.At j ≠ r) →
        l.GetIdentityIndex r = some (-1)) := by
  unfold CList.fSize
  constructor
  · intro i h0 hi hir hlow
    lift i to ℕ using h0
    rcases l.GetIdentityIndex_cases r with ⟨i0, hi0, hir0, hlow0, hres⟩ | ⟨hnone, _⟩
    · have hle : i0 = i := by
        rcases Nat.lt_trichotomy i0 i with hlt | heq | hgt
        · exact absurd hir0 (hlow (i0 : Int) (by omega) (by omega))
        · exact heq
        · exact absurd hir (hlow0 i hgt)
      rw [← hle]
      exact hres
    · exact absurd hir (hnone i (by omega))
  · intro hnone
    rcases l.GetIdentityIndex_cases r with ⟨i0, hi0, hir0, _, _⟩ | ⟨_, hres⟩
    · exact absurd hir0 (hnone (i0 : Int) (by omega) (by omega))
    · exact hres

/-- Sample run for C2: in `[7, 0, 3, 0]` the `nil` reference is first held by
slot 1, and `5`, never inserted, is reported with the sentinel. -/
theorem CList.GetIdentityIndex_first_occurrence_witness :
    (CList.mk [7, 0, 3, 0]).GetIdentityIndex 0 = some 1 ∧
    (CList.mk [7, 0, 3, 0]).GetIdentityIndex 5 = some (-1) :=
  ⟨(CList.GetIdentityIndex_first_occurrence ⟨[7, 0, 3, 0]⟩ 0).1 1
      (by decide) (by decide) (by decide)
      (by
        intro j h0 h1
        have hj : j = 0 := by omega
        subst hj
        decide),
   (CList.GetIdentityIndex_first_occurrence ⟨[7, 0, 3, 0]⟩ 5).2
      (by
        intro j h0 h1
        have h4 : j < 4 := h1
        have hj : j = 0 ∨ j = 1 ∨ j = 2 ∨ j = 3 := by omega
        rcases hj with rfl | rfl | rfl | rfl <;> decide)⟩

/-! ## Identity-based mutation -/

/-- C3: if `r` occurs in the list, `Remove r` succeeds and the new list is the
old one without the slot of the first occurrence of `r` (the slots before and
after it in their order, the count one less); if `r` does not occur, `Remove r`
returns an error and the list is unchanged. -/
theorem CList.Remove_first_occurrence (l : CList) (r : ULong) :
    (r ∈ l.fArrayBlock →
      ∃ i : Int, 0 ≤ i ∧ i < l.fSize ∧ l.At i = r ∧
        (∀ j : Int, 0 ≤ j → j < i → l.At j ≠ r) ∧
        ∃ l1 : CList, l.Remove r = some (noErr, l1) ∧
          l1.fArrayBlock = l.fArrayBlock.take i.toNat ++ l.fArrayBlock.drop (i.toNat + 1) ∧
          l1.fArrayBlock = l.fArrayBlock.erase r ∧
          l1.fSize = l.fSize - 1) ∧
    (r ∉ l.fArrayBlock →
      l.Remove r = some (errRangeCheck, l) ∧ errRangeCheck ≠ noErr) := by
  constructor
  · intro h
    obtain ⟨i, hi, hir, hlow, hres⟩ := l.GetIdentityIndex_of_mem r h
    have hne : (i : Int) ≠ kEmptyIndex := by unfold kEmptyIndex; omega
    refine ⟨(i : Int), by omega, by unfold CList.fSize; omega, hir, ?_,
      ⟨l.fArrayBlock.take i ++ l.fArrayBlock.drop (i + 1)⟩, ?_, ?_, ?_, ?_⟩
    · intro j h0 hj
      lift j to ℕ using h0
      exact hlow j (by omega)
    · unfold CList.Remove
      rw [hres]
      simp only [Option.map_some', hne, ne_eq, not_false_eq_true, if_true]
      rw [CList.RemoveAt_natCast l i hi]
    · simp
    · simp only [CList.At_natCast] at hir hlow
      exact (erase_eq_take_drop r l.fArrayBlock i hi hir hlow).symm
    · unfold CList.fSize
      have hlen : (l.fArrayBlock.take i ++ l.fArrayBlock.drop (i + 1)).length
          = l.fArrayBlock.length - 1 := by
        simp only [List.length_append, List.length_take, List.length_drop]
        omega
      show ((l.fArrayBlock.take i ++ l.fArrayBlock.drop (i + 1)).length : Int)
          = (l.fArrayBlock.length : Int) - 1
      rw [hlen]
      omega
  · intro h
    exact ⟨l.Remove_of_not_mem r h, by decide⟩

/-- Sample run for C3: removing `5` from `[5, 7, 5]` leaves `[7, 5]`; removing
`9`, which does not occur, is an error and leaves the list as it was. -/
theorem CList.Remove_first_occurrence_witness :
    (∃ i : Int, 0 ≤ i ∧ i < (CList.mk [5, 7, 5]).fSize ∧ (CList.mk [5, 7, 5]).At i = 5 ∧
        (∀ j : Int, 0 ≤ j → j < i → (CList.mk [5, 7, 5]).At j ≠ 5) ∧
        ∃ l1 : CList, (CList.mk [5, 7, 5]).Remove 5 = some (noErr, l1) ∧
          l1.fArrayBlock = [5, 7, 5].take i.toNat ++ [5, 7, 5].drop (i.toNat + 1) ∧
          l1.fArrayBlock = [5, 7, 5].erase 5 ∧
          l1.fSize = (CList.mk [5, 7, 5]).fSize - 1) ∧
    ((CList.mk [5, 7, 5]).Remove 9 = some (errRangeCheck, ⟨[5, 7, 5]⟩) ∧
        errRangeCheck ≠ noErr) :=
  ⟨(CList.Remove_first_occurrence ⟨[5, 7, 5]⟩ 5).1 (by decide),
   (CList.Remove_first_occurrence ⟨[5, 7, 5]⟩ 9).2 (by decide)⟩

/-- C4: if `old` occurs in the list, `Replace old new` succeeds and the new list
differs from the old one only at the index of the first occurrence of `old`,
which now holds `new` (same count, every other slot as before); if `old` does
not occur, `Replace` returns an error and the list is unchanged. -/
theorem CList.Replace_first_occurrence (l : CList) (old new : ULong) :
    (old ∈ l.fArrayBlock →
      ∃ i : Int, 0 ≤ i ∧ i < l.fSize ∧ l.At i = old ∧
        (∀ j : Int, 0 ≤ j → j < i → l.At j ≠ old) ∧
        ∃ l1 : CList, l.Replace old new = some (noErr, l1) ∧
          l1.fSize = l.fSize ∧ l1.At i = new ∧
          (∀ j : Int, j ≠ i → l1.At j = l.At j)) ∧
    (old ∉ l.fArrayBlock →
      l.Replace old new = some (errRangeCheck, l) ∧ errRangeCheck ≠ noErr) := by
  constructor
  · intro h
    obtain ⟨i, hi, hir, hlow, hres⟩ := l.GetIdentityIndex_of_mem old h
    have hne : (i : Int) ≠ kEmptyIndex := by unfold kEmptyIndex; omega
    have hsize : (CList.mk (l.fArrayBlock.set i new)).fSize = l.fSize := by
      unfold CList.fSize
      simp
    refine ⟨(i : Int), by omega, by unfold CList.fSize; omega, hir, ?_,
      ⟨l.fArrayBlock.set i new⟩, ?_, hsize, ?_, ?_⟩
    · intro j h0 hj
      lift j to ℕ using h0
      exact hlow j (by omega)
    · unfold CList.Replace
      rw [hres]
      simp only [Option.map_some', hne, ne_eq, not_false_eq_true, if_true]
      rw [CList.ReplaceAt_natCast l i new hi]
    · rw [CList.At_natCast]
      simp [List.getD, hi]
    · intro j hj
      by_cases hr : 0 ≤ j ∧ j < l.fSize
      · obtain ⟨h0, hlt⟩ := hr
        lift j to ℕ using h0
        have hji : i ≠ j := by
          intro hEq
          exact hj (by rw [hEq])
        rw [CList.At_natCast, CList.At_natCast]
        simp [List.getD, List.getElem?_set_ne hji]
      · have hout : j < 0 ∨ l.fSize ≤ j := by
          by_cases h0 : 0 ≤ j
          · right
            exact not_lt.mp (fun hlt => hr ⟨h0, hlt⟩)
          · left
            exact not_le.mp h0
        rw [CList.At_out_of_range l j hout, CList.At_out_of_range _ j (by rw [hsize]; exact hout)]
  · intro h
    exact ⟨l.Replace_of_not_mem old new h, by decide⟩

/-- Sample run for C4: replacing `5` by `1` in `[7, 5, 5]` changes slot 1 only;
replacing `9`, which does not occur, is an error and leaves the list as it
was. -/
theorem CList.Replace_first_occurrence_witness :
    (∃ i : Int, 0 ≤ i ∧ i < (CList.mk [7, 5, 5]).fSize ∧ (CList.mk [7, 5, 5]).At i = 5 ∧
        (∀ j : Int, 0 ≤ j → j < i → (CList.mk [7, 5, 5]).At j ≠ 5) ∧
        ∃ l1 : CList, (CList.mk [7, 5, 5]).Replace 5 1 = some (noErr, l1) ∧
          l1.fSize = (CList.mk [7, 5, 5]).fSize ∧ l1.At i = 1 ∧
          (∀ j : Int, j ≠ i → l1.At j = (CList.mk [7, 5, 5]).At j)) ∧
    ((CList.mk [7, 5, 5]).Replace 9 1 = some (errRangeCheck, ⟨[7, 5, 5]⟩) ∧
        errRangeCheck ≠ noErr) :=
  ⟨(CList.Replace_first_occurrence ⟨[7, 5, 5]⟩ 5 1).1 (by decide),
   (CList.Replace_first_occurrence ⟨[7, 5, 5]⟩ 9 1).2 (by decide)⟩

/-- C6, as stated, fails: on the list `[1]`, `Remove 2` and `Replace 2 3` (the
reference `2` does not occur) return `errRangeCheck`, the very code `RemoveAt`,
`ReplaceAt` and `InsertAt` return for an index outside the valid bounds; they
return exactly what `RemoveAt 1` and `ReplaceAt 1 3` return. -/
theorem CList.not_found_is_range_error :
    ((CList.mk [1]).Remove 2).map Prod.fst = some errRangeCheck ∧
    ((CList.mk [1]).Replace 2 3).map Prod.fst = some errRangeCheck ∧
    ((CList.mk [1]).RemoveAt 1).1 = errRangeCheck ∧
    ((CList.mk [1]).ReplaceAt 1 3).1 = errRangeCheck ∧
    ((CList.mk [1]).InsertAt 2 3 true).1 = errRangeCheck ∧
    ((CList.mk [1]).InsertAt 2 3 false).1 = errRangeCheck ∧
    (CList.mk [1]).Remove 2 = some ((CList.mk [1]).RemoveAt 1) ∧
    (CList.mk [1]).Replace 2 3 = some ((CList.mk [1]).ReplaceAt 1 3) := by
  decide

/-- C6, amended: for every list and every reference `r` that does not occur in
it, `Remove r` and `Replace r new` fail with `errRangeCheck` and leave the list
unchanged; `errRangeCheck` is not success, and it is the same code the
positional operations `RemoveAt`, `ReplaceAt` and `InsertAt` report for an index
outside the valid bounds. -/
theorem CList.not_found_reports_errRangeCheck (l : CList) (r new : ULong)
    (h : r ∉ l.fArrayBlock) :
    l.Remove r = some (errRangeCheck, l) ∧
    l.Replace r new = some (errRangeCheck, l) ∧
    errRangeCheck ≠ noErr ∧
    (∀ index : Int, index < 0 ∨ l.fSize ≤ index →
        l.RemoveAt index = (errRangeCheck, l) ∧ l.ReplaceAt index new = (errRangeCheck, l)) ∧
    (∀ (index : Int) (room : Bool), index < 0 ∨ l.fSize < index →
        l.InsertAt index new room = (errRangeCheck, l)) := by
  refine ⟨l.Remove_of_not_mem r h, l.Replace_of_not_mem r new h, by decide, ?_, ?_⟩
  · intro index hout
    have h1 : ¬ (0 ≤ index ∧ index < l.fSize) := by
      rintro ⟨h0, hlt⟩
      rcases hout with hneg | hge
      · exact absurd h0 (not_le.mpr hneg)
      · exact absurd hlt (not_lt.mpr hge)
    unfold CList.RemoveAt CList.ReplaceAt CList.ReplaceElementsAt
    simp [h1]
  · intro index room hout
    have h1 : ¬ (0 ≤ index ∧ index ≤ l.fSize) := by
      rintro ⟨h0, hle⟩
      rcases hout with hneg | hgt
      · exact absurd h0 (not_le.mpr hneg)
      · exact absurd hle (not_le.mpr hgt)
    unfold CList.InsertAt CList.InsertElementsBefore
    simp [h1]

/-- Sample run for the amended C6 on `[4, 6]` with the absent reference `5`. -/
theorem CList.not_found_reports_errRangeCheck_witness :
    5 ∉ (CList.mk [4, 6]).fArrayBlock ∧
    (CList.mk [4, 6]).Remove 5 = some (errRangeCheck, ⟨[4, 6]⟩) ∧
    (CList.mk [4, 6]).Replace 5 8 = some (errRangeCheck, ⟨[4, 6]⟩) :=
  ⟨by decide,
   (CList.not_found_reports_errRangeCheck ⟨[4, 6]⟩ 5 8 (by decide)).1,
   (CList.not_found_reports_errRangeCheck ⟨[4, 6]⟩ 5 8 (by decide)).2.1⟩

/-! ## Algebraic properties -/

/-- C8, as stated, fails: `[5, 5]` holds the reference `5` twice; `Remove 5`
succeeds and leaves `[5]`, in which `Contains 5` is still true and
`GetIdentityIndex 5` is `0`, not the sentinel. -/
theorem CList.Remove_duplicate_still_contained :
    (CList.mk [5, 5]).Remove 5 = some (noErr, ⟨[5]⟩) ∧
    (CList.mk [5]).Contains 5 = some true ∧
    (CList.mk [5]).GetIdentityIndex 5 = some 0 ∧
    (0 : ArrayIndex) ≠ kEmptyIndex := by
  decide

/-- C8, amended: for every list in which `x` occurs at most once, immediately
after `Remove x` succeeds, `Contains x` is false and `GetIdentityIndex x`
returns the sentinel empty index. -/
theorem CList.Remove_then_absent (l l1 : CList) (x : ULong)
    (hcount : l.fArrayBlock.count x ≤ 1)
    (h : l.Remove x = some (noErr, l1)) :
    l1.Contains x = some false ∧ l1.GetIdentityIndex x = some kEmptyIndex := by
  have hmem : x ∈ l.fArrayBlock := by
    by_contra hn
    rw [l.Remove_of_not_mem x hn] at h
    simp at h
  rw [l.Remove_of_mem x hmem] at h
  have hl1 : l1 = ⟨l.fArrayBlock.erase x⟩ := by
    simp only [Option.some.injEq, Prod.mk.injEq, true_and] at h
    exact h.symm
  have hnot : x ∉ l1.fArrayBlock := by
    rw [hl1]
    apply List.count_eq_zero.mp
    rw [List.count_erase_self]
    omega
  exact ⟨l1.Contains_of_not_mem x hnot, l1.GetIdentityIndex_of_not_mem x hnot⟩

/-- Sample run for the amended C8: removing `5` from `[4, 5, 6]`. -/
theorem CList.Remove_then_absent_witness :
    (CList.mk [4, 5, 6]).fArrayBlock.count 5 ≤ 1 ∧
    (CList.mk [4, 5, 6]).Remove 5 = some (noErr, ⟨[4, 6]⟩) ∧
    (CList.mk [4, 6]).Contains 5 = some false ∧
    (CList.mk [4, 6]).GetIdentityIndex 5 = some kEmptyIndex :=
  ⟨by decide, by decide,
   CList.Remove_then_absent ⟨[4, 5, 6]⟩ ⟨[4, 6]⟩ 5 (by decide) (by decide)⟩

/-- C10, as stated, fails: index 2 is the count of `[1, 2]`, yet when growth
cannot acquire storage `InsertAt 2 9` does not succeed: it returns the
allocation error. -/
theorem CList.InsertAt_fails_without_storage :
    ((0 : Int) ≤ 2 ∧ (2 : Int) ≤ (CList.mk [1, 2]).fSize) ∧
    ((CList.mk [1, 2]).InsertAt 2 9 false).1 = errNoMemory ∧
    ((CList.mk [1, 2]).InsertAt 2 9 false).1 ≠ noErr := by
  decide

/-- C10, amended: for every list, reference `x` and index `i` with
`0 ≤ i ≤ count`, `InsertAt i x` succeeds when the array has or acquires the
storage for the new slot, and after an `InsertAt i x` that succeeded the count
is one more and `At i` returns `x`. -/
theorem CList.InsertAt_then_At (l : CList) (x : ULong) (i : Int)
    (h0 : 0 ≤ i) (hi : i ≤ l.fSize) :
    (∃ l1 : CList, l.InsertAt i x true = (noErr, l1)) ∧
    (∀ (room : Bool) (l1 : CList), l.InsertAt i x room = (noErr, l1) →
      l1.fSize = l.fSize + 1 ∧ l1.At i = x) := by
  unfold CList.fSize at hi
  lift i to ℕ using h0
  have hi' : i ≤ l.fArrayBlock.length := by omega
  refine ⟨⟨_, CList.InsertAt_natCast l i x hi'⟩, ?_⟩
  intro room l1 h
  cases room with
  | false =>
    rw [CList.InsertAt_natCast_no_room l i x hi'] at h
    simp at h
  | true =>
    rw [CList.InsertAt_natCast l i x hi'] at h
    have hl1 : l1 = ⟨l.fArrayBlock.take i ++ x :: l.fArrayBlock.drop i⟩ := by
      simp only [Prod.mk.injEq, true_and] at h
      exact h.symm
    subst hl1
    constructor
    · have hlen : (l.fArrayBlock.take i ++ x :: l.fArrayBlock.drop i).length
          = l.fArrayBlock.length + 1 := by
        simp only [List.length_append, List.length_take, List.length_cons, List.length_drop]
        omega
      show ((l.fArrayBlock.take i ++ x :: l.fArrayBlock.drop i).length : Int)
          = (l.fArrayBlock.length : Int) + 1
      rw [hlen]
      omega
    · rw [CList.At_natCast]
      have htake : (l.fArrayBlock.take i).length = i := by
        rw [List.length_take]
        omega
      rw [List.getD_eq_getElem?_getD, List.getElem?_append_right (by omega), htake]
      simp

/-- Sample run for the amended C10: inserting `9` at the end (index 2) and at
the front of `[1, 2]`, with storage. -/
theorem CList.InsertAt_then_At_witness :
    ((0 : Int) ≤ 2 ∧ (2 : Int) ≤ (CList.mk [1, 2]).fSize) ∧
    ((CList.mk [1, 2]).InsertAt 2 9 true = (noErr, ⟨[1, 2, 9]⟩) ∧
      (CList.mk [1, 2, 9]).fSize = (CList.mk [1, 2]).fSize + 1 ∧
      (CList.mk [1, 2, 9]).At 2 = 9) ∧
    ((CList.mk [1, 2]).InsertAt 0 9 true = (noErr, ⟨[9, 1, 2]⟩) ∧
      (CList.mk [9, 1, 2]).fSize = (CList.mk [1, 2]).fSize + 1 ∧
      (CList.mk [9, 1, 2]).At 0 = 9) :=
  ⟨⟨by decide, by decide⟩,
   ⟨by decide,
    (CList.InsertAt_then_At ⟨[1, 2]⟩ 9 2 (by decide) (by decide)).2 true ⟨[1, 2, 9]⟩
      (by decide)⟩,
   ⟨by decide,
    (CList.InsertAt_then_At ⟨[1, 2]⟩ 9 0 (by decide) (by decide)).2 true ⟨[9, 1, 2]⟩
      (by decide)⟩⟩

/-! ## Search with the list as state -/

/-- With a `TestItem` that leaves the list alone, the state-passing loop returns
what the first match among the slots from `k` on gives, the list it was given,
and as tested items the slots from `k` up to that match. -/
theorem CList.Search_loopS_eq (l : CList) (test : CItemComparerS)
    (hpure : ∀ (l0 : CList) (x : ULong), (test.TestItem l0 x).2 = l0) :
    ∀ (n k fuel : Nat) (tested : List ULong), k + n = l.fArrayBlock.length → n < fuel →
      CList.Search.loopS test fuel l
          ⟨if k < l.fArrayBlock.length then (k : Int) else kEmptyIndex⟩
          (if k < l.fArrayBlock.length then l.fArrayBlock.getD k nil else nil) tested
        = some ⟨(firstMatch ⟨fun x => (test.TestItem l x).1⟩ (l.fArrayBlock.drop k) k).1,
                (firstMatch ⟨fun x => (test.TestItem l x).1⟩ (l.fArrayBlock.drop k) k).2,
                l,
                tested ++ testedPrefix ⟨fun x => (test.TestItem l x).1⟩ (l.fArrayBlock.drop k)⟩ := by
  intro n
  induction n with
  | zero =>
    intro k fuel tested hk hf
    obtain ⟨f, rfl⟩ : ∃ f, fuel = f + 1 := ⟨fuel - 1, by omega⟩
    have hlt : ¬ k < l.fArrayBlock.length := by omega
    have hdrop : l.fArrayBlock.drop k = [] := List.drop_eq_nil_of_le (by omega)
    rw [CList.Search.loopS, CListIterator.More_at, hdrop]
    simp [hlt, firstMatch, testedPrefix]
  | succ n ih =>
    intro k fuel tested hk hf
    obtain ⟨f, rfl⟩ : ∃ f, fuel = f + 1 := ⟨fuel - 1, by omega⟩
    have hlt : k < l.fArrayBlock.length := by omega
    have hdrop : l.fArrayBlock.drop k = l.fArrayBlock.getD k nil :: l.fArrayBlock.drop (k + 1) := by
      rw [List.drop_eq_getElem_cons hlt]
      simp [List.getD, List.getElem?_eq_getElem hlt]
    rw [CList.Search.loopS, CListIterator.More_at, hdrop]
    simp only [hlt, decide_True, if_true, firstMatch, testedPrefix, hpure]
    by_cases ht : (test.TestItem l (l.fArrayBlock.getD k nil)).1 = kItemEqualCriteria
    · simp only [ht, if_true]
    · simp only [ht, if_false]
      rw [CListIterator.NextItem_at l k hlt]
      rw [ih (k + 1) f (tested ++ [l.fArrayBlock.getD k nil]) (by omega) (by omega)]
      simp

/-- With a `TestItem` that leaves the list alone, every step count above the
number of slots gives the same run. -/
theorem CList.SearchSWithin_eq (l : CList) (test : CItemComparerS)
    (hpure : ∀ (l0 : CList) (x : ULong), (test.TestItem l0 x).2 = l0)
    (fuel : Nat) (hfuel : l.fArrayBlock.length < fuel) :
    l.SearchSWithin fuel test
      = some ⟨(firstMatch ⟨fun x => (test.TestItem l x).1⟩ l.fArrayBlock 0).1,
              (firstMatch ⟨fun x => (test.TestItem l x).1⟩ l.fArrayBlock 0).2,
              l,
              testedPrefix ⟨fun x => (test.TestItem l x).1⟩ l.fArrayBlock⟩ := by
  unfold CList.SearchSWithin CListIterator.cListIterator
  simp only [CListIterator.FirstItem_at]
  have := CList.Search_loopS_eq l test hpure l.fArrayBlock.length 0 fuel [] (by omega) hfuel
  simpa using this

theorem CList.SearchS_eq (l : CList) (test : CItemComparerS)
    (hpure : ∀ (l0 : CList) (x : ULong), (test.TestItem l0 x).2 = l0) :
    l.SearchS test
      = some ⟨(firstMatch ⟨fun x => (test.TestItem l x).1⟩ l.fArrayBlock 0).1,
              (firstMatch ⟨fun x => (test.TestItem l x).1⟩ l.fArrayBlock 0).2,
              l,
              testedPrefix ⟨fun x => (test.TestItem l x).1⟩ l.fArrayBlock⟩ :=
  CList.SearchSWithin_eq l test hpure (l.fArrayBlock.length + 1) (Nat.lt_succ_self _)

/-- A `TestItem` that grows the list makes the loop run past the entry count:
a comparer that appends `0` to the list while it has fewer than four slots is
still running after the two steps `SearchS` allows for `[4]`, and with six steps
the loop ends once the list has stopped growing, having tested four slots. -/
theorem CList.SearchSWithin_growing_comparer :
    (CList.mk [4]).SearchS
        ⟨fun l _ => (kItemNotEqualCriteria,
          if l.fArrayBlock.length < 4 then ⟨l.fArrayBlock ++ [0]⟩ else l)⟩ = none ∧
    (CList.mk [4]).SearchSWithin 6
        ⟨fun l _ => (kItemNotEqualCriteria,
          if l.fArrayBlock.length < 4 then ⟨l.fArrayBlock ++ [0]⟩ else l)⟩
      = some ⟨nil, kEmptyIndex, ⟨[4, 0, 0, 0]⟩, [4, 0, 0, 0]⟩ := by
  decide

theorem testedPrefix_of_never_equal (test : CItemComparer) :
    ∀ xs : List ULong, (∀ x ∈ xs, test.TestItem x ≠ kItemEqualCriteria) →
      testedPrefix test xs = xs := by
  intro xs
  induction xs with
  | nil => intro _; rfl
  | cons x xs ih =>
    intro h
    have hx : test.TestItem x ≠ kItemEqualCriteria := h x (List.mem_cons_self x xs)
    simp only [testedPrefix, hx, if_false]
    rw [ih (fun y hy => h y (List.mem_cons_of_mem x hy))]

theorem firstMatch_of_never_equal (test : CItemComparer) :
    ∀ (xs : List ULong) (k : Nat), (∀ x ∈ xs, test.TestItem x ≠ kItemEqualCriteria) →
      firstMatch test xs k = (nil, kEmptyIndex) := by
  intro xs
  induction xs with
  | nil => intro _ _; rfl
  | cons x xs ih =>
    intro k h
    have hx : test.TestItem x ≠ kItemEqualCriteria := h x (List.mem_cons_self x xs)
    simp only [firstMatch, hx, if_false]
    exact ih (k + 1) (fun y hy => h y (List.mem_cons_of_mem x hy))

/-- A `TestItem` that changes the list is visible in the state-passing
embedding: a comparer that removes slot 0 at each test makes the search skip
slots and leaves a shorter list. -/
theorem CList.SearchS_mutating_comparer :
    (CList.mk [4, 9, 9, 2]).SearchS ⟨fun l _ => (kItemNotEqualCriteria, (l.RemoveAt 0).2)⟩
      = some ⟨nil, kEmptyIndex, ⟨[9, 2]⟩, [4, 9]⟩ := by
  decide

theorem CList.getD_eq_getElem (l : CList) (i : Nat) (h : i < l.fArrayBlock.length) :
    l.fArrayBlock.getD i nil = l.fArrayBlock[i] := by
  simp [List.getD, List.getElem?_eq_getElem h]

theorem CList.duplicateFree_iff_nodup (l : CList) :
    l.DuplicateFree ↔ l.fArrayBlock.Nodup := by
  rw [List.nodup_iff_getElem?_ne_getElem?]
  unfold CList.DuplicateFree CList.fSize
  constructor
  · intro h i j hij hj heq
    have hi : i < l.fArrayBlock.length := by omega
    have hAt : l.At (i : Int) = l.At (j : Int) := by
      rw [CList.At_natCast, CList.At_natCast, List.getD_eq_getElem?_getD,
        List.getD_eq_getElem?_getD, heq]
    have := h (i : Int) (j : Int) (by omega) (by omega) (by omega) (by omega) hAt
    omega
  · intro h i j hi0 hi hj0 hj hAt
    lift i to ℕ using hi0
    lift j to ℕ using hj0
    have hi' : i < l.fArrayBlock.length := by omega
    have hj' : j < l.fArrayBlock.length := by omega
    rw [CList.At_natCast, CList.At_natCast, l.getD_eq_getElem i hi',
      l.getD_eq_getElem j hj'] at hAt
    have heq : l.fArrayBlock[i]? = l.fArrayBlock[j]? := by
      rw [List.getElem?_eq_getElem hi', List.getElem?_eq_getElem hj', hAt]
    rcases Nat.lt_trichotomy i j with hlt | hEq | hgt
    · exact absurd heq (h i j hlt hj')
    · rw [hEq]
    · exact absurd heq.symm (h j i hgt hi')

/-! ## Reads, traversal order and invariants -/

/-- C11: for every list and index, `At index` returns the reference stored in
slot `index` when `0 ≤ index < count`, and `nil` when `index` is outside
`[0, count)`.  `At` is a read: its embedding takes the list and returns the
value only, so the list after the call is the list before it. -/
theorem CList.At_in_and_out_of_range (l : CList) (index : Int) :
    (0 ≤ index ∧ index < l.fSize → l.fArrayBlock[index.toNat]? = some (l.At index)) ∧
    (index < 0 ∨ l.fSize ≤ index → l.At index = nil) := by
  constructor
  · rintro ⟨h0, hlt⟩
    unfold CList.fSize at hlt
    lift index to ℕ using h0
    have h : index < l.fArrayBlock.length := by omega
    rw [CList.At_natCast, l.getD_eq_getElem index h]
    simp [List.getElem?_eq_getElem h]
  · intro h
    exact CList.At_out_of_range l index h

/-- Sample run for C11 on `[6, 0, 8]`: slot 2 holds `8`; the indices `3` and
`-1` are outside the list. -/
theorem CList.At_in_and_out_of_range_witness :
    (CList.mk [6, 0, 8]).fArrayBlock[(2 : Int).toNat]? = some ((CList.mk [6, 0, 8]).At 2) ∧
    (CList.mk [6, 0, 8]).At 2 = 8 ∧
    (CList.mk [6, 0, 8]).At 3 = nil ∧
    (CList.mk [6, 0, 8]).At (-1) = nil :=
  ⟨(CList.At_in_and_out_of_range ⟨[6, 0, 8]⟩ 2).1 (by decide), by decide,
   (CList.At_in_and_out_of_range ⟨[6, 0, 8]⟩ 3).2 (by decide),
   (CList.At_in_and_out_of_range ⟨[6, 0, 8]⟩ (-1)).2 (by decide)⟩

/-- C12: for every list and every comparator that never reports equal, `Search`
returns `nil` and the sentinel empty index, and the items it passed to
`TestItem`, in call order, are exactly the slots of the list from index 0 to
`count - 1`, each once; the list is as before. -/
theorem CList.Search_never_equal_visits_all (l : CList) (test : CItemComparer)
    (h : ∀ x : ULong, test.TestItem x ≠ kItemEqualCriteria) :
    l.Search test = some (nil, kEmptyIndex) ∧
    l.SearchS test.toS = some ⟨nil, kEmptyIndex, l, l.fArrayBlock⟩ := by
  constructor
  · rw [CList.Search_eq, firstMatch_of_never_equal test l.fArrayBlock 0 (fun x _ => h x)]
  · rw [CList.SearchS_eq l test.toS (fun _ _ => rfl)]
    have hT : (⟨fun x => (test.toS.TestItem l x).1⟩ : CItemComparer) = test := rfl
    rw [hT, firstMatch_of_never_equal test l.fArrayBlock 0 (fun x _ => h x),
      testedPrefix_of_never_equal test l.fArrayBlock (fun x _ => h x)]

/-- Sample run for C12: the comparer that answers not-equal to everything, on
`[3, 1, 3]`. -/
theorem CList.Search_never_equal_visits_all_witness :
    (CList.mk [3, 1, 3]).Search ⟨fun _ => kItemNotEqualCriteria⟩ = some (nil, kEmptyIndex) ∧
    (CList.mk [3, 1, 3]).SearchS (CItemComparer.toS ⟨fun _ => kItemNotEqualCriteria⟩)
      = some ⟨nil, kEmptyIndex, ⟨[3, 1, 3]⟩, [3, 1, 3]⟩ :=
  CList.Search_never_equal_visits_all ⟨[3, 1, 3]⟩ ⟨fun _ => kItemNotEqualCriteria⟩
    (by intro x; simp)

/-- C13: for every list in which no reference occurs at two different indices
and every reference `x`, `InsertUnique x` returns, and in the list it leaves
(whatever it returned, and whether or not the append found its storage) no
reference occurs at two different indices. -/
theorem CList.InsertUnique_preserves_DuplicateFree (l : CList) (x : ULong) (room : Bool)
    (h : l.DuplicateFree) :
    ∃ (b : Bool) (l1 : CList), l.InsertUnique x room = some (b, l1) ∧ l1.DuplicateFree := by
  by_cases hmem : x ∈ l.fArrayBlock
  · exact ⟨false, l, l.InsertUnique_of_mem x room hmem, h⟩
  · cases room with
    | false => exact ⟨true, l, l.InsertUnique_of_not_mem_no_room x hmem, h⟩
    | true =>
      refine ⟨true, ⟨l.fArrayBlock ++ [x]⟩, l.InsertUnique_of_not_mem x hmem, ?_⟩
      rw [CList.duplicateFree_iff_nodup]
      have hnd : l.fArrayBlock.Nodup := (l.duplicateFree_iff_nodup).mp h
      rw [List.nodup_append]
      refine ⟨hnd, List.nodup_singleton x, ?_⟩
      intro a ha hax
      have : a = x := by simpa using hax
      exact hmem (this ▸ ha)

/-- Sample run for C13: `[5, 7]` is duplicate-free, and so is what
`InsertUnique 7` and `InsertUnique 3` leave, the latter with and without
storage for the append. -/
theorem CList.InsertUnique_preserves_DuplicateFree_witness :
    (CList.mk [5, 7]).DuplicateFree ∧
    (∃ (b : Bool) (l1 : CList),
      (CList.mk [5, 7]).InsertUnique 7 true = some (b, l1) ∧ l1.DuplicateFree) ∧
    (∃ (b : Bool) (l1 : CList),
      (CList.mk [5, 7]).InsertUnique 3 true = some (b, l1) ∧ l1.DuplicateFree) ∧
    (∃ (b : Bool) (l1 : CList),
      (CList.mk [5, 7]).InsertUnique 3 false = some (b, l1) ∧ l1.DuplicateFree) :=
  ⟨(CList.duplicateFree_iff_nodup ⟨[5, 7]⟩).mpr (by decide),
   CList.InsertUnique_preserves_DuplicateFree ⟨[5, 7]⟩ 7 true
     ((CList.duplicateFree_iff_nodup ⟨[5, 7]⟩).mpr (by decide)),
   CList.InsertUnique_preserves_DuplicateFree ⟨[5, 7]⟩ 3 true
     ((CList.duplicateFree_iff_nodup ⟨[5, 7]⟩).mpr (by decide)),
   CList.InsertUnique_preserves_DuplicateFree ⟨[5, 7]⟩ 3 false
     ((CList.duplicateFree_iff_nodup ⟨[5, 7]⟩).mpr (by decide))⟩

/-- C15: `Search` and `GetIdentityIndex` are read-only.  For every list and
every comparer whose `TestItem` leaves the list as it finds it, the
state-passing `Search` returns, the list after the call is the list before it
(same count, same content of every slot), and the value and index are those of
`Search`; for every reference the state-passing `GetIdentityIndex` returns the
index of `GetIdentityIndex` and the list unchanged. -/
theorem CList.Search_GetIdentityIndex_read_only (l : CList) :
    (∀ test : CItemComparerS,
      (∀ (l0 : CList) (x : ULong), (test.TestItem l0 x).2 = l0) →
      ∃ run : SearchRun, l.SearchS test = some run ∧
        run.list = l ∧ run.list.fSize = l.fSize ∧ (∀ i : Int, run.list.At i = l.At i) ∧
        l.Search ⟨fun x => (test.TestItem l x).1⟩ = some (run.result, run.index)) ∧
    (∀ item : ULong, ∃ index : ArrayIndex,
      l.GetIdentityIndexS item = some (index, l) ∧ l.GetIdentityIndex item = some index) := by
  constructor
  · intro test hpure
    refine ⟨_, CList.SearchS_eq l test hpure, rfl, rfl, fun _ => rfl, ?_⟩
    rw [CList.Search_eq]
  · intro item
    unfold CList.GetIdentityIndexS CList.GetIdentityIndex CItemComparer.cItemComparer
    simp only []
    rw [CList.SearchS_eq l _ (fun _ _ => rfl), CList.Search_eq]
    exact ⟨_, rfl, rfl⟩

/-- Sample run for C15 on `[4, 9, 9]`: the identity comparer of `9`, which
leaves the list alone, and `GetIdentityIndex 9`. -/
theorem CList.Search_GetIdentityIndex_read_only_witness :
    (∃ run : SearchRun,
      (CList.mk [4, 9, 9]).SearchS
          ⟨fun l0 c => (if c = 9 then kItemEqualCriteria else kItemNotEqualCriteria, l0)⟩
        = some run ∧
      run.list = ⟨[4, 9, 9]⟩ ∧ run.list.fSize = (CList.mk [4, 9, 9]).fSize ∧
      (∀ i : Int, run.list.At i = (CList.mk [4, 9, 9]).At i) ∧
      (CList.mk [4, 9, 9]).Search
          ⟨fun x => if x = 9 then kItemEqualCriteria else kItemNotEqualCriteria⟩
        = some (run.result, run.index)) ∧
    (∃ index : ArrayIndex,
      (CList.mk [4, 9, 9]).GetIdentityIndexS 9 = some (index, ⟨[4, 9, 9]⟩) ∧
      (CList.mk [4, 9, 9]).GetIdentityIndex 9 = some index) :=
  ⟨(CList.Search_GetIdentityIndex_read_only ⟨[4, 9, 9]⟩).1
      ⟨fun l0 c => (if c = 9 then kItemEqualCriteria else kItemNotEqualCriteria, l0)⟩
      (fun _ _ => rfl),
   (CList.Search_GetIdentityIndex_read_only ⟨[4, 9, 9]⟩).2 9⟩

/-- C16: the value `Search` returns does not by itself tell whether a match was
found.  On the list `[7, nil]` the identity comparer of `nil` makes `Search`
return `nil` with index 1, which lies in `[0, count)` and is not the sentinel;
on `[7]` the same comparer finds nothing and `Search` returns the same value
`nil` with the sentinel.  Only the index differs. -/
theorem CList.Search_nil_value_with_valid_index :
    ∃ (l : CList) (test : CItemComparer) (i : Int),
      CItemComparer.cItemComparer nil nil = some test ∧
      nil ∈ l.fArrayBlock ∧
      l.Search test = some (nil, i) ∧ 0 ≤ i ∧ i < l.fSize ∧ i ≠ kEmptyIndex ∧
      l.At i = nil ∧
      (CList.mk [7]).Search test = some (nil, kEmptyIndex) :=
  ⟨⟨[7, nil]⟩,
   ⟨fun candidate => if candidate = nil then kItemEqualCriteria else kItemNotEqualCriteria⟩,
   1, rfl, by decide, by decide, by decide, by decide, by decide, by decide, by decide⟩

end IrDA
